import Mathlib

/-!
Verification of the word-rotation and progress-tracking engine of
`flash_card.py`, a flashcard drill tool.  The Python module keeps global
mutable state (`words`, `remembered_words`, `current`, `round_list`,
`revealed`, `progress_data`, `current_list`) and mutates it through
keyboard handlers; here that state is a `SessionState` record and each
handler is a pure state-transforming function.  `random.shuffle` is
modelled by an explicit reordering function together with the hypothesis
`IsShuffle` stating that it permutes its input.  File contents are passed
as values: a CSV file is an optional list of rows, and the JSON progress
file an optional `JValue` tree (`none` standing for a file that is absent
or unreadable).  `progress_data` is the persisted store: `save_progress`
writes it to disk verbatim after every mutation.
-/

namespace FlashCard

/-- One entry of the loaded word list: `{'word': ..., 'definition': ...}`. -/
structure WordEntry where
  word : String
  definition : String
deriving DecidableEq, Repr

/-- A model of one call to `random.shuffle`: an arbitrary reordering
function on word lists. -/
abbrev Shuffle : Type := List WordEntry → List WordEntry

/-- The reordering genuinely permutes its input, as `random.shuffle` does. -/
def IsShuffle (sh : Shuffle) : Prop := ∀ l : List WordEntry, (sh l).Perm l

/-- The identity reordering (one of the permutations a shuffle may pick). -/
def idShuffle : Shuffle := fun l => l

/-- Python `d.get(k, dflt)`; a dict is modelled as an insertion-ordered
association list whose keys are distinct. -/
def dictGet {α : Type} (k : String) (d : List (String × α)) (dflt : α) : α :=
  match d with
  | [] => dflt
  | (k1, v) :: rest => if k1 = k then v else dictGet k rest dflt

/-- Python `d[k] = v`: replace the first binding of `k` in place, or append
a new binding at the end, as assignment on an insertion-ordered dict does. -/
def dictSet {α : Type} (k : String) (v : α) (d : List (String × α)) :
    List (String × α) :=
  match d with
  | [] => [(k, v)]
  | (k1, v1) :: rest => if k1 = k then (k, v) :: rest else (k1, v1) :: dictSet k v rest

/-- Python `k in d`. -/
def dictHas {α : Type} (k : String) (d : List (String × α)) : Bool :=
  match d with
  | [] => false
  | (k1, _) :: rest => if k1 = k then true else dictHas k rest

/-- Python `list(s)` on a set of strings.  A Python set iterates in an
unspecified order; the model determinizes it as the sorted list of the
set's elements (order is irrelevant to the store's meaning). -/
def setToList (s : Finset String) : List String :=
  s.sort (fun a b => a ≤ b)

/-- The module-level mutable state of `flash_card.py`: the active list
name, the full progress store (mirrored to `progress.json` on every save),
the loaded word list, the remembered set (a Python `set`), the displayed
entry, the round queue, and the reveal flag. -/
structure SessionState where
  current_list : String
  progress_data : List (String × List String)
  words : List WordEntry
  remembered_words : Finset String
  current : Option WordEntry
  round_list : List WordEntry
  revealed : Bool
deriving DecidableEq

/-- `get_new_word`: drop remembered words from the round queue; if the
queue is then empty, rebuild it from all unremembered words and shuffle;
pop the head into `current` (`none` when nothing is left) and clear
`revealed`.  `head?`/`tail` model `pop(0)` on a possibly empty list. -/
def get_new_word (sh : Shuffle) (s : SessionState) : SessionState :=
  let rl0 := s.round_list.filter (fun w => decide (w.word ∉ s.remembered_words))
  let rl1 :=
    if rl0 = [] then
      sh (s.words.filter (fun w => decide (w.word ∉ s.remembered_words)))
    else rl0
  { s with current := rl1.head?, round_list := rl1.tail, revealed := false }

/-- The Return-key branch of `on_key_press`: reveal the definition on the
first press, advance via `get_new_word` on the second; ignored when no
word is displayed. -/
def pressReturn (sh : Shuffle) (s : SessionState) : SessionState :=
  match s.current with
  | none => s
  | some _ => if s.revealed then get_new_word sh s else { s with revealed := true }

/-- The space-key branch of `on_key_press` (`markRemembered`): add the
current word to `remembered_words`, store `list(remembered_words)` under
the active list in `progress_data` and save; the displayed word stays. -/
def pressSpace (s : SessionState) : SessionState :=
  match s.current with
  | none => s
  | some e =>
      { s with
        remembered_words := insert e.word s.remembered_words,
        progress_data :=
          dictSet s.current_list (setToList (insert e.word s.remembered_words))
            s.progress_data }

/-- The n-key branch of `on_key_press` (`skip`): advance without
remembering, but only while the definition is revealed. -/
def pressN (sh : Shuffle) (s : SessionState) : SessionState :=
  match s.current with
  | none => s
  | some _ => if s.revealed then get_new_word sh s else s

/-- `reset_current` with the confirmation granted (the prompt is a
presentation concern): clear the active list's progress in memory and in
the store, reshuffle the full word list into a new round and advance. -/
def reset_current (sh1 sh2 : Shuffle) (s : SessionState) : SessionState :=
  get_new_word sh2
    { s with
      remembered_words := ∅,
      progress_data := dictSet s.current_list [] s.progress_data,
      round_list := sh1 s.words }

/-- `reset_all` with the confirmation granted: empty every stored list's
progress, clear the remembered set, reshuffle and advance. -/
def reset_all (sh1 sh2 : Shuffle) (s : SessionState) : SessionState :=
  get_new_word sh2
    { s with
      remembered_words := ∅,
      progress_data := s.progress_data.map (fun kv => (kv.1, [])),
      round_list := sh1 s.words }

/-- `on_list_change`: switch to list `new_value`, whose CSV loads as
`new_words`; ensure the list has a progress entry, rebuild the remembered
set from the store, build a fresh shuffled round and advance. -/
def on_list_change (sh1 sh2 : Shuffle) (new_value : String)
    (new_words : List WordEntry) (s : SessionState) : SessionState :=
  let pd :=
    if dictHas new_value s.progress_data then s.progress_data
    else dictSet new_value [] s.progress_data
  let rem := (dictGet new_value pd []).toFinset
  get_new_word sh2
    { s with
      current_list := new_value,
      progress_data := pd,
      words := new_words,
      remembered_words := rem,
      round_list := sh1 (new_words.filter (fun w => decide (w.word ∉ rem))) }

/-- The state `main` builds before entering the event loop: the progress
store `pd0` as loaded from disk, with the active list's entry ensured as
`load_progress` does; the word list `ws`; a shuffled first round; and a
first call to `get_new_word`. -/
def init_state (sh1 sh2 : Shuffle) (cl : String)
    (pd0 : List (String × List String)) (ws : List WordEntry) : SessionState :=
  let pd := if dictHas cl pd0 then pd0 else dictSet cl [] pd0
  let rem := (dictGet cl pd []).toFinset
  get_new_word sh2
    { current_list := cl
      progress_data := pd
      words := ws
      remembered_words := rem
      current := none
      round_list := sh1 (ws.filter (fun w => decide (w.word ∉ rem)))
      revealed := false }

/-- One user-driven transition of the running program (reset prompts
already confirmed; every shuffle a genuine permutation). -/
inductive Step : SessionState → SessionState → Prop
  | ret (sh : Shuffle) (hsh : IsShuffle sh) (s : SessionState) :
      Step s (pressReturn sh s)
  | space (s : SessionState) : Step s (pressSpace s)
  | nkey (sh : Shuffle) (hsh : IsShuffle sh) (s : SessionState) :
      Step s (pressN sh s)
  | rcur (sh1 sh2 : Shuffle) (h1 : IsShuffle sh1) (h2 : IsShuffle sh2)
      (s : SessionState) : Step s (reset_current sh1 sh2 s)
  | rall (sh1 sh2 : Shuffle) (h1 : IsShuffle sh1) (h2 : IsShuffle sh2)
      (s : SessionState) : Step s (reset_all sh1 sh2 s)
  | sel (sh1 sh2 : Shuffle) (h1 : IsShuffle sh1) (h2 : IsShuffle sh2)
      (v : String) (ws : List WordEntry) (s : SessionState) :
      Step s (on_list_change sh1 sh2 v ws s)

/-- The states the program can reach: an initial state followed by any
sequence of user operations. -/
inductive Reachable : SessionState → Prop
  | init (sh1 sh2 : Shuffle) (h1 : IsShuffle sh1) (h2 : IsShuffle sh2)
      (cl : String) (pd0 : List (String × List String)) (ws : List WordEntry) :
      Reachable (init_state sh1 sh2 cl pd0 ws)
  | step (s t : SessionState) (hs : Reachable s) (hst : Step s t) : Reachable t

/-- A keyboard operation that may occur between two advances without
clearing progress (no reset, no list switch). -/
inductive Op : Type
  | ret (sh : Shuffle)
  | space
  | nkey (sh : Shuffle)

/-- Run one keyboard operation. -/
def applyOp (o : Op) (s : SessionState) : SessionState :=
  match o with
  | .ret sh => pressReturn sh s
  | .space => pressSpace s
  | .nkey sh => pressN sh s

/-- The shuffle carried by the operation, if any, permutes its input. -/
def OpValid (o : Op) : Prop :=
  match o with
  | .ret sh => IsShuffle sh
  | .space => True
  | .nkey sh => IsShuffle sh

/-- Every operation of the trace carries a genuine permutation. -/
def OpsValid (ops : List Op) : Prop := ∀ o ∈ ops, OpValid o

/-- Along a trace of operations, every step either leaves `current`
untouched or moves it to an entry whose word is not `w`. -/
def NoNewCurrent (w : String) : SessionState → List Op → Prop
  | _, [] => True
  | s, o :: os =>
      ((applyOp o s).current = s.current ∨
        ∀ e, (applyOp o s).current = some e → e.word ≠ w)
      ∧ NoNewCurrent w (applyOp o s) os

/-- The states produced by `n` successive `get_new_word` calls. -/
def advance_iter (sh : Shuffle) : Nat → SessionState → List SessionState
  | 0, _ => []
  | n + 1, s => get_new_word sh s :: advance_iter sh n (get_new_word sh s)

/-- A JSON value, as `json.load` produces it. -/
inductive JValue : Type
  | jnull : JValue
  | jbool : Bool → JValue
  | jnum : Int → JValue
  | jstr : String → JValue
  | jarr : List JValue → JValue
  | jobj : List (String × JValue) → JValue

/-- `save_progress`: `json.dump(progress_data, ...)` writes the store as a
JSON object; `ensure_ascii=False` keeps every string verbatim, which the
AST-level model does by construction. -/
def save_progress (st : List (String × JValue)) : JValue := JValue.jobj st

/-- `load_progress`: read the progress file (`none` when absent or
unreadable), fall back to an empty dict when the root is not a mapping,
then ensure the active list has an entry. -/
def load_progress (file : Option JValue) (cl : String) :
    List (String × JValue) :=
  let pd :=
    match file with
    | some (JValue.jobj kvs) => kvs
    | _ => []
  if dictHas cl pd then pd else dictSet cl (JValue.jarr []) pd

/-- The try/except around the file write in `save_progress`: `ok` is
whether the write succeeded.  The file is opened in truncating write mode,
so a failed dump can leave truncated or partial content — modelled by the
adversarially chosen `left_on_failure`, about which nothing is assumed.
The exception is caught and only logged, and the in-memory store is never
touched; the result is that store after the call and the file content. -/
def attempt_save (ok : Bool) (st : List (String × JValue))
    (left_on_failure : Option JValue) : List (String × JValue) × Option JValue :=
  (st, if ok then some (save_progress st) else left_on_failure)

/-- The body of the row loop in `load_words`: an empty row is skipped
(`if not row: continue`); otherwise the first column is trimmed as the
word and the second column trimmed as the definition, defaulting to the
empty string when the row has a single column. -/
def parse_row (row : List String) : Option WordEntry :=
  match row with
  | [] => none
  | c1 :: rest => some ⟨c1.trim, (rest.headD "").trim⟩

/-- `load_words`: read a CSV file (`none` when absent) and collect the
entries of its nonempty rows. -/
def load_words (file : Option (List (List String))) : List WordEntry :=
  match file with
  | none => []
  | some rows => rows.filterMap parse_row

/-- The identity reordering is a permutation. -/
theorem idShuffle_isShuffle : IsShuffle idShuffle := fun l => List.Perm.refl l

/-- When the filtered queue is nonempty, `get_new_word` pops its head. -/
theorem get_new_word_queue_cons (sh : Shuffle) (s : SessionState) (e : WordEntry)
    (rest : List WordEntry)
    (h : s.round_list.filter (fun w => decide (w.word ∉ s.remembered_words)) =
      e :: rest) :
    get_new_word sh s =
      { s with current := some e, round_list := rest, revealed := false } := by
  simp only [get_new_word]
  rw [h, if_neg (List.cons_ne_nil e rest)]
  rfl

/-- When the filtered queue is empty, `get_new_word` pops from the
freshly shuffled rebuild. -/
theorem get_new_word_rebuild (sh : Shuffle) (s : SessionState)
    (h : s.round_list.filter (fun w => decide (w.word ∉ s.remembered_words)) = []) :
    get_new_word sh s =
      { s with
        current :=
          (sh (s.words.filter (fun w => decide (w.word ∉ s.remembered_words)))).head?,
        round_list :=
          (sh (s.words.filter (fun w => decide (w.word ∉ s.remembered_words)))).tail,
        revealed := false } := by
  simp only [get_new_word]
  rw [h, if_pos rfl]

/-- `get_new_word` never touches the remembered set. -/
theorem get_new_word_remembered (sh : Shuffle) (s : SessionState) :
    (get_new_word sh s).remembered_words = s.remembered_words := rfl

/-- `get_new_word` never touches the word list. -/
theorem get_new_word_words (sh : Shuffle) (s : SessionState) :
    (get_new_word sh s).words = s.words := rfl

/-- `get_new_word` never touches the progress store. -/
theorem get_new_word_progress (sh : Shuffle) (s : SessionState) :
    (get_new_word sh s).progress_data = s.progress_data := rfl

/-- Whatever `get_new_word` puts into `current` passed the remembered
filter: its word is not remembered. -/
theorem get_new_word_current_unremembered (sh : Shuffle) (hsh : IsShuffle sh)
    (s : SessionState) (e : WordEntry)
    (hc : (get_new_word sh s).current = some e) :
    e.word ∉ s.remembered_words := by
  by_cases h :
      s.round_list.filter (fun w => decide (w.word ∉ s.remembered_words)) = []
  · rw [get_new_word_rebuild sh s h] at hc
    have he :
        e ∈ sh (s.words.filter (fun w => decide (w.word ∉ s.remembered_words))) :=
      List.mem_of_mem_head? (by simpa using hc)
    have he2 := (hsh _).mem_iff.mp he
    simpa using (List.mem_filter.mp he2).2
  · cases hq :
        s.round_list.filter (fun w => decide (w.word ∉ s.remembered_words)) with
    | nil => exact absurd hq h
    | cons a rest =>
        rw [get_new_word_queue_cons sh s a rest hq] at hc
        have ha : a ∈ s.round_list.filter
            (fun w => decide (w.word ∉ s.remembered_words)) := by
          rw [hq]; exact List.mem_cons_self a rest
        have hae : a = e := by simpa using hc
        subst hae
        simpa using (List.mem_filter.mp ha).2

/-- If `get_new_word` leaves `current` absent then every word of the list
was remembered (the rebuild, a permutation of the unremembered words, came
out empty). -/
theorem get_new_word_none_all_remembered (sh : Shuffle) (hsh : IsShuffle sh)
    (s : SessionState) (hc : (get_new_word sh s).current = none) :
    ∀ e ∈ s.words, e.word ∈ s.remembered_words := by
  by_cases h :
      s.round_list.filter (fun w => decide (w.word ∉ s.remembered_words)) = []
  · rw [get_new_word_rebuild sh s h] at hc
    have hnil :
        sh (s.words.filter (fun w => decide (w.word ∉ s.remembered_words))) = [] := by
      simpa [List.head?_eq_none_iff] using hc
    have hu : s.words.filter (fun w => decide (w.word ∉ s.remembered_words)) = [] := by
      have hp := hsh (s.words.filter (fun w => decide (w.word ∉ s.remembered_words)))
      rw [hnil] at hp
      exact (hp.symm).eq_nil
    intro e he
    have := List.filter_eq_nil_iff.mp hu e he
    simpa using this
  · cases hq :
        s.round_list.filter (fun w => decide (w.word ∉ s.remembered_words)) with
    | nil => exact absurd hq h
    | cons a rest =>
        rw [get_new_word_queue_cons sh s a rest hq] at hc
        simp at hc

/-- No non-reset operation ever removes a word from the remembered set. -/
theorem applyOp_remembered_mono (o : Op) (s : SessionState) (w : String)
    (hw : w ∈ s.remembered_words) : w ∈ (applyOp o s).remembered_words := by
  cases o with
  | ret sh =>
      simp only [applyOp, pressReturn]
      cases hc : s.current with
      | none => exact hw
      | some a =>
          by_cases hr : s.revealed = true
          · rw [if_pos hr]; exact hw
          · rw [if_neg hr]; exact hw
  | space =>
      simp only [applyOp, pressSpace]
      cases hc : s.current with
      | none => exact hw
      | some a => exact Finset.mem_insert_of_mem hw
  | nkey sh =>
      simp only [applyOp, pressN]
      cases hc : s.current with
      | none => exact hw
      | some a =>
          by_cases hr : s.revealed = true
          · rw [if_pos hr]; exact hw
          · rw [if_neg hr]; exact hw

/-- One non-reset operation, run from a state that remembers `w`, either
leaves `current` alone or moves it to an entry whose word is not `w`. -/
theorem applyOp_current_avoids (o : Op) (hv : OpValid o) (s : SessionState)
    (w : String) (hw : w ∈ s.remembered_words) :
    (applyOp o s).current = s.current ∨
      ∀ e, (applyOp o s).current = some e → e.word ≠ w := by
  cases o with
  | ret sh =>
      simp only [applyOp, pressReturn]
      cases hc : s.current with
      | none => exact Or.inl hc
      | some a =>
          by_cases hr : s.revealed = true
          · rw [if_pos hr]
            refine Or.inr (fun e hce hew => ?_)
            exact get_new_word_current_unremembered sh hv s e hce (hew ▸ hw)
          · rw [if_neg hr]; exact Or.inl rfl
  | space =>
      simp only [applyOp, pressSpace]
      cases hc : s.current with
      | none => exact Or.inl hc
      | some a => exact Or.inl rfl
  | nkey sh =>
      simp only [applyOp, pressN]
      cases hc : s.current with
      | none => exact Or.inl hc
      | some a =>
          by_cases hr : s.revealed = true
          · rw [if_pos hr]
            refine Or.inr (fun e hce hew => ?_)
            exact get_new_word_current_unremembered sh hv s e hce (hew ▸ hw)
          · rw [if_neg hr]; exact Or.inl hc

/-- Claim C1: once `w` is remembered (and no reset or list switch clears
it), no later advance sets `current` to an entry whose word is `w`: along
any trace of Return / space / n operations with genuine shuffles, every
step either keeps `current` or moves it to a word other than `w`. -/
theorem C1_no_remembered_word_reshown (w : String) (s : SessionState)
    (ops : List Op) (hw : w ∈ s.remembered_words) (hv : OpsValid ops) :
    NoNewCurrent w s ops := by
  induction ops generalizing s with
  | nil => trivial
  | cons o os ih =>
      have hvo : OpValid o := hv o (List.mem_cons_self o os)
      have hvs : OpsValid os := fun o2 h2 => hv o2 (List.mem_cons_of_mem o h2)
      exact ⟨applyOp_current_avoids o hvo s w hw,
        ih (applyOp o s) (applyOp_remembered_mono o s w hw) hvs⟩

/-- A concrete mid-session state: `cat` was marked remembered while still
displayed, then the user advanced to `dog`. -/
def c1State : SessionState :=
  { current_list := "list1"
    progress_data := [("list1", ["cat"])]
    words := [⟨"cat", "喵"⟩, ⟨"dog", "狗"⟩]
    remembered_words := {"cat"}
    current := some ⟨"dog", "狗"⟩
    round_list := []
    revealed := true }

/-- Witness for C1 at a concrete state and trace. -/
theorem C1_no_remembered_word_reshown_witness :
    "cat" ∈ c1State.remembered_words ∧
      OpsValid [Op.ret idShuffle, Op.space, Op.nkey idShuffle] ∧
      NoNewCurrent "cat" c1State [Op.ret idShuffle, Op.space, Op.nkey idShuffle] := by
  have hv : OpsValid [Op.ret idShuffle, Op.space, Op.nkey idShuffle] := by
    intro o ho
    simp only [List.mem_cons, List.not_mem_nil, or_false] at ho
    rcases ho with h | h | h <;> subst h
    · exact idShuffle_isShuffle
    · trivial
    · exact idShuffle_isShuffle
  exact ⟨by decide, hv,
    C1_no_remembered_word_reshown "cat" c1State _ (by decide) hv⟩

/-- From a queue whose entries are all unremembered, `queue.length`
successive advances pop exactly the queue, in order. -/
theorem advance_iter_pops (sh : Shuffle) :
    ∀ (q : List WordEntry) (s : SessionState), s.round_list = q →
      (∀ e ∈ q, e.word ∉ s.remembered_words) →
      (advance_iter sh q.length s).map SessionState.current = q.map some := by
  intro q
  induction q with
  | nil => intro s _ _; rfl
  | cons e rest ih =>
      intro s hs hmem
      have hfilter :
          s.round_list.filter (fun w => decide (w.word ∉ s.remembered_words)) =
            e :: rest := by
        rw [hs]
        exact List.filter_eq_self.mpr
          (fun a ha => by simpa using hmem a ha)
      have hstep := get_new_word_queue_cons sh s e rest hfilter
      have hrest : ∀ a ∈ rest, a.word ∉
          ({ s with current := some e, round_list := rest, revealed := false } :
            SessionState).remembered_words :=
        fun a ha => hmem a (List.mem_cons_of_mem e ha)
      have hlen : (e :: rest).length = rest.length + 1 := rfl
      rw [hlen]
      simp only [advance_iter, hstep, List.map_cons]
      rw [ih _ rfl hrest]

/-- A list mapping to `l2.map some` filter-maps to `l2` itself. -/
theorem filterMap_of_map_eq_map_some {α β : Type} (f : α → Option β) :
    ∀ (l : List α) (l2 : List β), l.map f = l2.map some → l.filterMap f = l2 := by
  intro l
  induction l with
  | nil =>
      intro l2 h
      cases l2 with
      | nil => rfl
      | cons b bs => simp at h
  | cons a as ih =>
      intro l2 h
      cases l2 with
      | nil => simp at h
      | cons b bs =>
          simp only [List.map_cons, List.cons.injEq] at h
          simp [List.filterMap_cons, h.1, ih bs h.2]

/-- Claim C2: within one round — the queue found empty after filtering and
rebuilt as an arbitrary permutation of the unremembered words — the next
`u.length` advances display exactly the entries of the shuffled rebuild in
order; in particular each not-yet-remembered entry becomes `current`
exactly once before the queue next empties. -/
theorem C2_round_presents_each_once (sh : Shuffle) (hsh : IsShuffle sh)
    (s : SessionState)
    (hq : s.round_list.filter (fun w => decide (w.word ∉ s.remembered_words)) = []) :
    ((advance_iter sh
        (s.words.filter (fun w => decide (w.word ∉ s.remembered_words))).length
        s).map SessionState.current =
      (sh (s.words.filter (fun w => decide (w.word ∉ s.remembered_words)))).map some)
    ∧ ((advance_iter sh
        (s.words.filter (fun w => decide (w.word ∉ s.remembered_words))).length
        s).filterMap SessionState.current).Perm
      (s.words.filter (fun w => decide (w.word ∉ s.remembered_words))) := by
  have hmap :
      (advance_iter sh
        (s.words.filter (fun w => decide (w.word ∉ s.remembered_words))).length
        s).map SessionState.current =
      (sh (s.words.filter (fun w => decide (w.word ∉ s.remembered_words)))).map some := by
    have hlen :=
      (hsh (s.words.filter (fun w => decide (w.word ∉ s.remembered_words)))).length_eq
    have hstep := get_new_word_rebuild sh s hq
    cases hu : sh (s.words.filter (fun w => decide (w.word ∉ s.remembered_words))) with
    | nil =>
        have hu0 : s.words.filter (fun w => decide (w.word ∉ s.remembered_words)) = [] := by
          have hp := hsh (s.words.filter (fun w => decide (w.word ∉ s.remembered_words)))
          rw [hu] at hp
          exact hp.symm.eq_nil
        rw [hu0]
        rfl
    | cons e rest =>
        rw [hu] at hlen hstep
        have hstep2 : get_new_word sh s =
            { s with current := some e, round_list := rest, revealed := false } :=
          hstep.trans rfl
        have hulen :
            (s.words.filter (fun w => decide (w.word ∉ s.remembered_words))).length =
              rest.length + 1 := by
          rw [← hlen, List.length_cons]
        have hmem : ∀ a ∈ rest, a.word ∉
            ({ s with current := some e, round_list := rest, revealed := false } :
              SessionState).remembered_words := by
          intro a ha
          have ha2 : a ∈ sh (s.words.filter (fun w => decide (w.word ∉ s.remembered_words))) := by
            rw [hu]; exact List.mem_cons_of_mem e ha
          have ha3 := (hsh _).mem_iff.mp ha2
          simpa using (List.mem_filter.mp ha3).2
        have hpops := advance_iter_pops sh rest
          { s with current := some e, round_list := rest, revealed := false } rfl hmem
        rw [hulen]
        simp only [advance_iter, hstep2, List.map_cons]
        rw [hpops]
  refine ⟨hmap, ?_⟩
  rw [filterMap_of_map_eq_map_some SessionState.current _ _ hmap]
  exact hsh _

/-- A concrete state at a round boundary (queue exhausted, nothing
remembered), used to witness claim C2. -/
def c2State : SessionState :=
  { current_list := "list1"
    progress_data := [("list1", [])]
    words := [⟨"cat", "喵"⟩, ⟨"dog", "狗"⟩]
    remembered_words := ∅
    current := none
    round_list := []
    revealed := false }

/-- Witness for C2 at a concrete state and the identity permutation. -/
theorem C2_round_presents_each_once_witness :
    (c2State.round_list.filter (fun w => decide (w.word ∉ c2State.remembered_words)) = [])
    ∧ ((advance_iter idShuffle
        (c2State.words.filter (fun w => decide (w.word ∉ c2State.remembered_words))).length
        c2State).map SessionState.current =
      (idShuffle (c2State.words.filter
        (fun w => decide (w.word ∉ c2State.remembered_words)))).map some) :=
  ⟨by decide,
    (C2_round_presents_each_once idShuffle idShuffle_isShuffle c2State (by decide)).1⟩

/-- Right after any `get_new_word`, `current` can be absent only when
every word of the list is remembered. -/
theorem get_new_word_exhausted_inv (sh : Shuffle) (hsh : IsShuffle sh)
    (s : SessionState) :
    (get_new_word sh s).current = none →
      ∀ e ∈ (get_new_word sh s).words,
        e.word ∈ (get_new_word sh s).remembered_words :=
  fun hc => get_new_word_none_all_remembered sh hsh s hc

/-- Claim C3 (amended): in every reachable state, `current` absent implies
that every entry of `words` is remembered.  (The converse direction of the
specified equivalence is false: see the counterexample.) -/
theorem C3_current_absent_only_if_exhausted (s : SessionState)
    (hs : Reachable s) :
    s.current = none → ∀ e ∈ s.words, e.word ∈ s.remembered_words := by
  induction hs with
  | init sh1 sh2 h1 h2 cl pd0 ws => exact get_new_word_exhausted_inv sh2 h2 _
  | step s t hs hst ih =>
      cases hst with
      | ret sh hsh =>
          simp only [pressReturn]
          cases hcur : s.current with
          | none => exact ih
          | some a =>
              by_cases hr : s.revealed = true
              · rw [if_pos hr]
                exact get_new_word_exhausted_inv sh hsh s
              · rw [if_neg hr]
                intro hc
                exact Option.noConfusion hc
      | space =>
          simp only [pressSpace]
          cases hcur : s.current with
          | none => exact ih
          | some a =>
              intro hc
              exact Option.noConfusion hc
      | nkey sh hsh =>
          simp only [pressN]
          cases hcur : s.current with
          | none => exact ih
          | some a =>
              by_cases hr : s.revealed = true
              · rw [if_pos hr]
                exact get_new_word_exhausted_inv sh hsh s
              · rw [if_neg hr]
                exact ih
      | rcur sh1 sh2 h1 h2 => exact get_new_word_exhausted_inv sh2 h2 _
      | rall sh1 sh2 h1 h2 => exact get_new_word_exhausted_inv sh2 h2 _
      | sel sh1 sh2 h1 h2 v ws => exact get_new_word_exhausted_inv sh2 h2 _

/-- Witness for C3 (amended): the freshly initialized session on an empty
word list has no current word, and the exhaustion conclusion holds. -/
theorem C3_current_absent_only_if_exhausted_witness :
    Reachable (init_state idShuffle idShuffle "list1" [] []) ∧
    (init_state idShuffle idShuffle "list1" [] []).current = none ∧
    ∀ e ∈ (init_state idShuffle idShuffle "list1" [] []).words,
      e.word ∈ (init_state idShuffle idShuffle "list1" [] []).remembered_words := by
  have hr : Reachable (init_state idShuffle idShuffle "list1" [] []) :=
    Reachable.init idShuffle idShuffle idShuffle_isShuffle idShuffle_isShuffle
      "list1" [] []
  exact ⟨hr, by decide,
    C3_current_absent_only_if_exhausted _ hr (by decide)⟩

/-- The state reached by loading a one-word list and marking that word
remembered without advancing. -/
def c3State : SessionState :=
  pressSpace (init_state idShuffle idShuffle "list1" [] [⟨"cat", "喵"⟩])

/-- Counterexample to C3 as stated: `c3State` is reachable, its word list
is nonempty and every entry of it is remembered — yet `current` is still
present (marking does not advance), so the if-and-only-if fails. -/
theorem C3_counterexample :
    Reachable c3State ∧
    ¬ (c3State.current = none ↔
        ((∀ e ∈ c3State.words, e.word ∈ c3State.remembered_words) ∨
          c3State.words = [])) := by
  constructor
  · exact Reachable.step _ _
      (Reachable.init idShuffle idShuffle idShuffle_isShuffle idShuffle_isShuffle
        "list1" [] [⟨"cat", "喵"⟩])
      (Step.space _)
  · decide

/-- Reading back the key just written. -/
theorem dictGet_dictSet_self {α : Type} (k : String) (v : α)
    (d : List (String × α)) (dflt : α) : dictGet k (dictSet k v d) dflt = v := by
  induction d with
  | nil => simp [dictGet, dictSet]
  | cons kv rest ih =>
      obtain ⟨k1, v1⟩ := kv
      by_cases h : k1 = k
      · simp [dictSet, dictGet, h]
      · simp [dictSet, dictGet, h, ih]

/-- Writing one key leaves every other key's value alone. -/
theorem dictGet_dictSet_ne {α : Type} (k j : String) (v : α)
    (d : List (String × α)) (dflt : α) (hne : j ≠ k) :
    dictGet j (dictSet k v d) dflt = dictGet j d dflt := by
  induction d with
  | nil => simp [dictGet, dictSet, Ne.symm hne]
  | cons kv rest ih =>
      obtain ⟨k1, v1⟩ := kv
      by_cases h : k1 = k
      · subst h
        simp [dictSet, dictGet, Ne.symm hne]
      · by_cases hj : k1 = j
        · simp [dictSet, dictGet, h, hj, hne]
        · simp [dictSet, dictGet, h, hj, ih]

/-- Writing the same value at the same key twice equals writing it once. -/
theorem dictSet_dictSet_self {α : Type} (k : String) (v : α)
    (d : List (String × α)) : dictSet k v (dictSet k v d) = dictSet k v d := by
  induction d with
  | nil => simp [dictSet]
  | cons kv rest ih =>
      obtain ⟨k1, v1⟩ := kv
      by_cases h : k1 = k
      · simp [dictSet, h]
      · simp [dictSet, h, ih]

/-- The list written for a set of words never repeats an element. -/
theorem setToList_nodup (s : Finset String) : (setToList s).Nodup :=
  Finset.sort_nodup _ s

/-- What one space press does when a word is displayed. -/
theorem pressSpace_eq (s : SessionState) (e : WordEntry)
    (hc : s.current = some e) :
    pressSpace s =
      { s with
        remembered_words := insert e.word s.remembered_words,
        progress_data :=
          dictSet s.current_list (setToList (insert e.word s.remembered_words))
            s.progress_data } := by
  simp only [pressSpace, hc]

/-- Claim C4: with a word displayed, the space key adds exactly that word
to the remembered set and rewrites the active list's stored entry to the
updated set's elements, changing nothing else — other lists' stored
progress, `current`, `revealed`, the round queue, the word list and the
active list name are untouched, and no advance happens. -/
theorem C4_mark_remembered_frame (s : SessionState) (e : WordEntry)
    (hc : s.current = some e) :
    (pressSpace s).remembered_words = insert e.word s.remembered_words ∧
    dictGet s.current_list (pressSpace s).progress_data [] =
      setToList (insert e.word s.remembered_words) ∧
    (∀ k, k ≠ s.current_list →
      dictGet k (pressSpace s).progress_data [] = dictGet k s.progress_data []) ∧
    (pressSpace s).current = s.current ∧
    (pressSpace s).revealed = s.revealed ∧
    (pressSpace s).round_list = s.round_list ∧
    (pressSpace s).words = s.words ∧
    (pressSpace s).current_list = s.current_list := by
  rw [pressSpace_eq s e hc]
  exact ⟨rfl, dictGet_dictSet_self _ _ _ _,
    fun k hk => dictGet_dictSet_ne _ _ _ _ _ hk, rfl, rfl, rfl, rfl, rfl⟩

/-- A concrete state with `cat` displayed, `dog` queued, and a second
list's progress stored. -/
def c4State : SessionState :=
  { current_list := "list1"
    progress_data := [("list1", []), ("list2", ["old"])]
    words := [⟨"cat", "喵"⟩, ⟨"dog", "狗"⟩]
    remembered_words := ∅
    current := some ⟨"cat", "喵"⟩
    round_list := [⟨"dog", "狗"⟩]
    revealed := true }

/-- Witness for C4 at a concrete state. -/
theorem C4_mark_remembered_frame_witness :
    c4State.current = some ⟨"cat", "喵"⟩ ∧
    (pressSpace c4State).remembered_words = insert "cat" c4State.remembered_words ∧
    dictGet "list2" (pressSpace c4State).progress_data [] =
      dictGet "list2" c4State.progress_data [] ∧
    (pressSpace c4State).current = c4State.current ∧
    (pressSpace c4State).revealed = c4State.revealed := by
  have h := C4_mark_remembered_frame c4State ⟨"cat", "喵"⟩ (by decide)
  exact ⟨by decide, h.1, h.2.2.1 "list2" (by decide), h.2.2.2.1, h.2.2.2.2.1⟩

/-- Claim C10: the remembered collection is a set, so marking is
idempotent — a second space press changes nothing at all — the entry
stored for the active list never repeats a word, and marking an
already-remembered word leaves the remembered set unchanged. -/
theorem C10_mark_idempotent (s : SessionState) :
    pressSpace (pressSpace s) = pressSpace s ∧
    (∀ e, s.current = some e →
      (dictGet s.current_list (pressSpace s).progress_data []).Nodup) ∧
    (∀ e, s.current = some e → e.word ∈ s.remembered_words →
      (pressSpace s).remembered_words = s.remembered_words) := by
  cases hcur : s.current with
  | none =>
      have h0 : pressSpace s = s := by simp only [pressSpace, hcur]
      refine ⟨by rw [h0, h0], ?_, ?_⟩
      · intro e he
        exact Option.noConfusion he
      · intro e he _
        exact Option.noConfusion he
  | some a =>
      have hps := pressSpace_eq s a hcur
      refine ⟨?_, ?_, ?_⟩
      · have ht : (pressSpace s).current = some a := by rw [hps]; exact hcur
        rw [pressSpace_eq (pressSpace s) a ht, hps]
        simp [Finset.insert_idem, dictSet_dictSet_self]
      · intro e he
        rw [hps]
        rw [dictGet_dictSet_self]
        exact setToList_nodup _
      · intro e he hw
        injection he with hae
        subst hae
        rw [hps]
        simp [Finset.insert_eq_self.mpr hw]

/-- A concrete state whose displayed word is already remembered. -/
def c10State : SessionState :=
  { current_list := "list1"
    progress_data := [("list1", ["cat"])]
    words := [⟨"cat", "喵"⟩]
    remembered_words := {"cat"}
    current := some ⟨"cat", "喵"⟩
    round_list := []
    revealed := false }

/-- Witness for C10 at a concrete state. -/
theorem C10_mark_idempotent_witness :
    c10State.current = some ⟨"cat", "喵"⟩ ∧
    "cat" ∈ c10State.remembered_words ∧
    pressSpace (pressSpace c10State) = pressSpace c10State ∧
    (dictGet c10State.current_list (pressSpace c10State).progress_data []).Nodup ∧
    (pressSpace c10State).remembered_words = c10State.remembered_words := by
  have h := C10_mark_idempotent c10State
  exact ⟨by decide, by decide, h.1, h.2.1 ⟨"cat", "喵"⟩ (by decide),
    h.2.2 ⟨"cat", "喵"⟩ (by decide) (by decide)⟩

/-- Claim C6 (amended): a first Return press with a word displayed and the
definition hidden sets `revealed` and changes nothing else; Return with no
word displayed is a no-op; but Return with the definition already revealed
is not a no-op — it advances via `get_new_word`, so a second press in a
row advances instead of leaving `revealed` true. -/
theorem C6_return_semantics (sh : Shuffle) (s : SessionState) :
    (s.current = none → pressReturn sh s = s) ∧
    (s.current ≠ none → s.revealed = false →
      pressReturn sh s = { s with revealed := true }) ∧
    (s.current ≠ none → s.revealed = true →
      pressReturn sh s = get_new_word sh s) := by
  refine ⟨?_, ?_, ?_⟩
  · intro hc
    simp only [pressReturn, hc]
  · intro hc hr
    cases hcur : s.current with
    | none => exact absurd hcur hc
    | some a => simp [pressReturn, hcur, hr]
  · intro hc hr
    cases hcur : s.current with
    | none => exact absurd hcur hc
    | some a => simp [pressReturn, hcur, hr]

/-- The session freshly initialized on a one-word list: `cat` displayed,
definition hidden. -/
def c6State : SessionState :=
  init_state idShuffle idShuffle "list1" [] [⟨"cat", "喵"⟩]

/-- Witness for C6 (amended) at a concrete state. -/
theorem C6_return_semantics_witness :
    c6State.current ≠ none ∧ c6State.revealed = false ∧
    pressReturn idShuffle c6State = { c6State with revealed := true } :=
  ⟨by decide, by decide,
    (C6_return_semantics idShuffle c6State).2.1 (by decide) (by decide)⟩

/-- Counterexample to C6 as stated: with one word loaded, the first Return
press reveals, but the second Return press is not a no-op — it advances
and `revealed` is false again, so two presses in a row do not leave
`revealed` true. -/
theorem C6_counterexample :
    c6State.current = some ⟨"cat", "喵"⟩ ∧ c6State.revealed = false ∧
    (pressReturn idShuffle c6State).revealed = true ∧
    (pressReturn idShuffle (pressReturn idShuffle c6State)).revealed = false := by
  decide

/-- Claim C5 (amended): with word `W` displayed and revealed, skip never
changes the remembered set or the store; and when the filtered round queue
is nonempty (the skip does not cross a round boundary) and contains no
entry carrying `W`'s word, the new current word differs from `W`'s word.
On a round boundary the rebuild may redisplay `W` at once. -/
theorem C5_skip_does_not_remember (sh : Shuffle) (s : SessionState)
    (W : WordEntry) (hc : s.current = some W) (hr : s.revealed = true) :
    (pressN sh s).remembered_words = s.remembered_words ∧
    (pressN sh s).progress_data = s.progress_data ∧
    ((s.round_list.filter (fun w => decide (w.word ∉ s.remembered_words)) ≠ [] ∧
      ∀ a ∈ s.round_list.filter (fun w => decide (w.word ∉ s.remembered_words)),
        a.word ≠ W.word) →
      ∃ e, (pressN sh s).current = some e ∧ e.word ≠ W.word) := by
  have hpn : pressN sh s = get_new_word sh s := by
    simp [pressN, hc, hr]
  refine ⟨by rw [hpn]; rfl, by rw [hpn]; rfl, ?_⟩
  rintro ⟨hne, hall⟩
  cases hq : s.round_list.filter (fun w => decide (w.word ∉ s.remembered_words)) with
  | nil => exact absurd hq hne
  | cons a rest =>
      refine ⟨a, ?_, ?_⟩
      · rw [hpn, get_new_word_queue_cons sh s a rest hq]
      · exact hall a (by rw [hq]; exact List.mem_cons_self a rest)

/-- A mid-round state: `cat` displayed and revealed, `dog` still queued. -/
def c5State : SessionState :=
  { current_list := "list1"
    progress_data := [("list1", [])]
    words := [⟨"cat", "喵"⟩, ⟨"dog", "狗"⟩]
    remembered_words := ∅
    current := some ⟨"cat", "喵"⟩
    round_list := [⟨"dog", "狗"⟩]
    revealed := true }

/-- Witness for C5 (amended) at a concrete state. -/
theorem C5_skip_does_not_remember_witness :
    (c5State.current = some ⟨"cat", "喵"⟩ ∧ c5State.revealed = true) ∧
    (pressN idShuffle c5State).remembered_words = c5State.remembered_words ∧
    (pressN idShuffle c5State).progress_data = c5State.progress_data ∧
    ∃ e, (pressN idShuffle c5State).current = some e ∧ e.word ≠ "cat" := by
  have h := C5_skip_does_not_remember idShuffle c5State ⟨"cat", "喵"⟩
    (by decide) (by decide)
  exact ⟨⟨by decide, by decide⟩, h.1, h.2.1, h.2.2 ⟨by decide, by decide⟩⟩

/-- A round-boundary state: `cat` displayed and revealed, queue empty,
both words unremembered. -/
def c5BoundaryState : SessionState :=
  { current_list := "list1"
    progress_data := [("list1", [])]
    words := [⟨"cat", "喵"⟩, ⟨"dog", "狗"⟩]
    remembered_words := ∅
    current := some ⟨"cat", "喵"⟩
    round_list := []
    revealed := true }

/-- Counterexample to C5 as stated: at a round boundary with two
unremembered words, skipping `cat` rebuilds the round from all
unremembered words — `cat` included — and the identity permutation (a
legitimate shuffle outcome) redisplays `cat` immediately, so the new
current is not a different word. -/
theorem C5_counterexample :
    IsShuffle idShuffle ∧
    c5BoundaryState.current = some ⟨"cat", "喵"⟩ ∧
    c5BoundaryState.revealed = true ∧
    (c5BoundaryState.words.filter
      (fun w => decide (w.word ∉ c5BoundaryState.remembered_words))).length = 2 ∧
    (pressN idShuffle c5BoundaryState).current = some ⟨"cat", "喵"⟩ :=
  ⟨idShuffle_isShuffle, by decide, by decide, by decide, by decide⟩

/-- Claim C8: `load_words` keeps exactly the nonempty rows, mapping each
to an entry made of the trimmed first column and the trimmed second column
(empty when the row has a single column); a missing file yields `[]`. -/
theorem C8_load_words_spec :
    load_words none = [] ∧
    ∀ rows : List (List String),
      load_words (some rows) =
        (rows.filter (fun r => decide (r ≠ []))).map
          (fun r => ⟨(r.headD "").trim, ((r.drop 1).headD "").trim⟩) := by
  refine ⟨rfl, ?_⟩
  intro rows
  induction rows with
  | nil => rfl
  | cons r rest ih =>
      simp only [load_words] at ih ⊢
      cases r with
      | nil =>
          rw [List.filterMap_cons_none (show parse_row [] = none from rfl),
            List.filter_cons_of_neg (by decide)]
          exact ih
      | cons c cs =>
          rw [List.filterMap_cons_some
              (show parse_row (c :: cs) =
                some ⟨c.trim, (cs.headD "").trim⟩ from rfl),
            List.filter_cons_of_pos (by simp), List.map_cons, ih]
          rfl

/-- Setting an absent key appends the binding at the end. -/
theorem dictSet_append_of_not_has {α : Type} (k : String) (v : α)
    (d : List (String × α)) (h : dictHas k d = false) :
    dictSet k v d = d ++ [(k, v)] := by
  induction d with
  | nil => rfl
  | cons kv rest ih =>
      obtain ⟨k1, v1⟩ := kv
      simp only [dictHas] at h
      by_cases hk : k1 = k
      · rw [if_pos hk] at h
        exact absurd h (by simp)
      · rw [if_neg hk] at h
        simp [dictSet, hk, ih h]

/-- Claim C7 (amended): `save_progress` followed by `load_progress` is the
identity on stores that already carry an entry for the active list; when
the active list has no entry, the loaded store is the saved one plus one
extra entry binding the active list to an empty array. -/
theorem C7_save_load_round_trip (st : List (String × JValue)) (cl : String) :
    (dictHas cl st = true → load_progress (some (save_progress st)) cl = st) ∧
    (dictHas cl st = false →
      load_progress (some (save_progress st)) cl = st ++ [(cl, JValue.jarr [])]) := by
  constructor
  · intro h
    simp [load_progress, save_progress, h]
  · intro h
    simp only [load_progress, save_progress]
    rw [if_neg (by simp [h]), dictSet_append_of_not_has cl (JValue.jarr []) st h]

/-- A concrete store holding non-ASCII strings for two lists. -/
def c7Store : List (String × JValue) :=
  [("list1", JValue.jarr [JValue.jstr "猫", JValue.jstr "犬"]),
   ("list2", JValue.jarr [])]

/-- Witness for C7 (amended) at a concrete store with non-ASCII content. -/
theorem C7_save_load_round_trip_witness :
    dictHas "list1" c7Store = true ∧
    load_progress (some (save_progress c7Store)) "list1" = c7Store :=
  ⟨by decide, (C7_save_load_round_trip c7Store "list1").1 (by decide)⟩

/-- Counterexample to C7 as stated: saving the empty store and loading it
back does not return the empty store — `load_progress` ensures an entry
for the active list, so the round-trip gains an extra entry. -/
theorem C7_counterexample :
    load_progress (some (save_progress [])) "list1" =
      [("list1", JValue.jarr [])] ∧
    ([("list1", JValue.jarr [])] : List (String × JValue)) ≠ [] :=
  ⟨rfl, by simp⟩

/-- Claim C9 (amended): no loading or persistence failure is surfaced:
`load_progress` is total and degrades an absent, unreadable or non-mapping
file to the store holding only the ensured empty entry for the active
list; `load_words` is total and yields `[]` for a missing file; and a save
attempt never touches the in-memory store, which stays authoritative
whatever the failed write left in the file. -/
theorem C9_failures_swallowed (cl : String) :
    (load_progress none cl = [(cl, JValue.jarr [])]) ∧
    (∀ v : JValue, (∀ kvs, v ≠ JValue.jobj kvs) →
      load_progress (some v) cl = [(cl, JValue.jarr [])]) ∧
    (load_words none = []) ∧
    (∀ (ok : Bool) (st : List (String × JValue)) (left : Option JValue),
      (attempt_save ok st left).1 = st) := by
  refine ⟨rfl, ?_, rfl, ?_⟩
  · intro v hv
    cases v with
    | jnull => rfl
    | jbool b => rfl
    | jnum n => rfl
    | jstr str => rfl
    | jarr xs => rfl
    | jobj kvs => exact absurd rfl (hv kvs)
  · intro ok st left
    rfl

/-- Witness for C9 (amended) at concrete inputs: a string-rooted file and
a failing write that left a truncated file behind. -/
theorem C9_failures_swallowed_witness :
    (∀ kvs, JValue.jstr "oops" ≠ JValue.jobj kvs) ∧
    load_progress (some (JValue.jstr "oops")) "list1" =
      [("list1", JValue.jarr [])] ∧
    (attempt_save false [("list1", JValue.jarr [])] (some (JValue.jstr "trunc"))).1 =
      [("list1", JValue.jarr [])] := by
  have h := C9_failures_swallowed "list1"
  exact ⟨fun kvs hk => JValue.noConfusion hk,
    h.2.1 _ (fun kvs hk => JValue.noConfusion hk),
    h.2.2.2 false _ (some (JValue.jstr "trunc"))⟩

/-- Counterexample to C9 as stated: with the progress file absent,
`load_progress` does not return an empty dictionary — the ensured entry
for the active list makes the result nonempty. -/
theorem C9_counterexample :
    load_progress none "list1" = [("list1", JValue.jarr [])] ∧
    ([("list1", JValue.jarr [])] : List (String × JValue)) ≠ [] :=
  ⟨rfl, by simp⟩

end FlashCard
